import Mathlib

/-!
Verification of the VectorShift workflow-graph core (`backend/graph_utils.py`).

The Python core consumes lists of node / edge records (which may be null or
carry empty required fields), builds an adjacency structure over the valid
node ids, and decides cycle existence by depth-first search with a
`visited` set and a `recursion_stack` (on-path) set.

Shallow embedding conventions:
* a possibly-null Python record is `Option WorkflowNode` / `Option WorkflowEdge`;
  a Python node/edge object is truthy, so only `None` is falsy, and an empty
  string field is falsy;
* the Python dict `adjacency_list` is an association list
  `List (String × List String)`; `adjGet` is `dict.get(k, [])`;
* Python sets `visited` / `recursion_stack` are `Finset String`;
* the Python set `node_ids` is iterated in an unspecified order; we fix the
  first-occurrence order `dedupFirst`, and prove the boolean result does not
  depend on that choice;
* the unbounded Python recursion of `has_cycle_dfs` is modelled with fuel;
  fuel exhaustion returns `none` (an abnormal outcome which, as proved below,
  never occurs for the fuel supplied by `detect_cycles`).
-/

namespace VectorShift

/-- Node record: the core reads only the `id` field (`models.WorkflowNode`). -/
structure WorkflowNode where
  id : String
deriving DecidableEq, Repr

/-- Edge record: the core reads `id`, `source`, `target` (`models.WorkflowEdge`). -/
structure WorkflowEdge where
  id : String
  source : String
  target : String
deriving DecidableEq, Repr

/-- Python `Dict[str, List[str]]` with remembered insertion order. -/
abbrev AdjList := List (String × List String)

/-- Python `adjacency_list.get(k, [])`: first (unique) matching key, default `[]`. -/
def adjGet (m : AdjList) (k : String) : List String :=
  match m with
  | [] => []
  | p :: rest => if p.1 = k then p.2 else adjGet rest k

/-- Python `if source not in adjacency_list: adjacency_list[source] = []` followed by
`adjacency_list[source].append(target)` (graph_utils.py lines 38-40): update
the entry of key `s` in place, or add a fresh entry at the end (Python dicts
keep insertion order and have unique keys). -/
def adjAppend (m : AdjList) (s t : String) : AdjList :=
  match m with
  | [] => [(s, [t])]
  | p :: rest => if p.1 = s then (p.1, p.2 ++ [t]) :: rest else p :: adjAppend rest s t

/-- First-occurrence deduplication; our fixed iteration order for the Python
set comprehension `{node.id for node in nodes if node and node.id}`. -/
def dedupFirst : List String → List String
  | [] => []
  | x :: xs => x :: (dedupFirst xs).filter (fun y => y ≠ x)

/-- The ids of the non-null records with a non-empty `id`, with duplicates. -/
def rawIds (nodes : List (Option WorkflowNode)) : List String :=
  nodes.filterMap (fun n? => n?.bind
    (fun n => if n.id = "" then none else some n.id))

/-- The valid node ids (graph_utils.py line 24): non-null records with a
non-empty `id`, as a duplicate-free list. -/
def validNodeIds (nodes : List (Option WorkflowNode)) : List String :=
  dedupFirst (rawIds nodes)

/-- The body of the `for edge in edges` loop of `build_adjacency_list`
(lines 29-40): skip null records and records with an empty id, skip edges
whose endpoints are not both valid node ids, otherwise append the target to
the source's neighbor list. -/
def buildStep (nodeIds : List String) (acc : AdjList) (e? : Option WorkflowEdge) : AdjList :=
  match e? with
  | none => acc
  | some e =>
    if e.id = "" then acc
    else if e.source ∈ nodeIds ∧ e.target ∈ nodeIds then adjAppend acc e.source e.target
    else acc

/-- The edge-insertion loop of `build_adjacency_list` (lines 27-41), split out
so that it is explicit that the node list enters only through its valid ids. -/
def buildFromIds (nodeIds : List String) (edges : List (Option WorkflowEdge)) : AdjList :=
  edges.foldl (buildStep nodeIds) (nodeIds.map (fun i => (i, ([] : List String))))

/-- Python `build_adjacency_list(nodes, edges)` (graph_utils.py lines 12-42). -/
def buildAdjacencyList (nodes : List (Option WorkflowNode))
    (edges : List (Option WorkflowEdge)) : AdjList :=
  buildFromIds (validNodeIds nodes) edges

mutual

/-- Python `has_cycle_dfs(adjacency_list, node_id, visited, recursion_stack)`
(graph_utils.py lines 45-83).  Returns the flag together with the final
`visited` / `recursion_stack` sets (Python mutates them in place); `none`
models fuel exhaustion. -/
def hasCycleDfs (adj : AdjList) (fuel : Nat) (nodeId : String)
    (visited recStack : Finset String) :
    Option (Bool × Finset String × Finset String) :=
  match fuel with
  | 0 => none
  | Nat.succ fuel' =>
    match dfsNeighbors adj fuel' (adjGet adj nodeId)
        (insert nodeId visited) (insert nodeId recStack) with
    | none => none
    | some (true, v, r) => some (true, v, r)
    | some (false, v, r) => some (false, v, r.erase nodeId)
termination_by (fuel, 0, 0)

/-- The `for neighbor in neighbors` loop of `has_cycle_dfs` (lines 71-79). -/
def dfsNeighbors (adj : AdjList) (fuel : Nat) (ns : List String)
    (visited recStack : Finset String) :
    Option (Bool × Finset String × Finset String) :=
  match ns with
  | [] => some (false, visited, recStack)
  | n :: rest =>
    if n ∈ recStack then some (true, visited, recStack)
    else if n ∉ visited then
      match hasCycleDfs adj fuel n visited recStack with
      | none => none
      | some (true, v, r) => some (true, v, r)
      | some (false, v, r) => dfsNeighbors adj fuel rest v r
    else dfsNeighbors adj fuel rest visited recStack
termination_by (fuel, 1, ns.length)

end

/-- The root loop of `detect_cycles` (lines 141-144). -/
def dfsRoots (adj : AdjList) (fuel : Nat) (roots : List String)
    (visited recStack : Finset String) : Option Bool :=
  match roots with
  | [] => some false
  | r :: rest =>
    if r ∈ visited then dfsRoots adj fuel rest visited recStack
    else
      match hasCycleDfs adj fuel r visited recStack with
      | none => none
      | some (true, _, _) => some true
      | some (false, v, rs) => dfsRoots adj fuel rest v rs

/-- Python `[node for node in nodes if node and node.id]` (line 124). -/
def pyFilterNodes (nodes : List (Option WorkflowNode)) : List (Option WorkflowNode) :=
  nodes.filter (fun n? => match n? with
    | some n => n.id != ""
    | none => false)

/-- Python `[edge for edge in edges if edge and edge.id and edge.source and edge.target]`
(line 125). -/
def pyFilterEdges (edges : List (Option WorkflowEdge)) : List (Option WorkflowEdge) :=
  edges.filter (fun e? => match e? with
    | some e => e.id != "" && e.source != "" && e.target != ""
    | none => false)

/-- Python `detect_cycles(nodes, edges)` (lines 86-147), with the traversal
generalized over the root iteration order (the Python set's order is
unspecified).  `none` models a run that would not terminate, which is
proved impossible for the fuel chosen below. -/
def detectCyclesCoreRoots (nodes : List (Option WorkflowNode))
    (edges : List (Option WorkflowEdge)) (roots : List String) : Option Bool :=
  if nodes.isEmpty then some false
  else
    let validNodes := pyFilterNodes nodes
    let validEdges := pyFilterEdges edges
    if validNodes.length = 0 then some false
    else
      dfsRoots (buildAdjacencyList validNodes validEdges)
        (roots.length + 1) roots ∅ ∅

/-- The function `detect_cycles` with our fixed iteration order over the valid-id set. -/
def detectCyclesCore (nodes : List (Option WorkflowNode))
    (edges : List (Option WorkflowEdge)) : Option Bool :=
  detectCyclesCoreRoots nodes edges (validNodeIds (pyFilterNodes nodes))

/-- The function `detect_cycles` as a boolean (the `getD` default is never reached). -/
def detect_cycles (nodes : List (Option WorkflowNode))
    (edges : List (Option WorkflowEdge)) : Bool :=
  (detectCyclesCore nodes edges).getD false

/-- Python `is_dag(nodes, edges)` (lines 150-168): `return not detect_cycles(nodes, edges)`. -/
def is_dag (nodes : List (Option WorkflowNode))
    (edges : List (Option WorkflowEdge)) : Bool :=
  !detect_cycles nodes edges

/-! ### Specification-side notions (stated from the spec's words, for
comparison against the code-derived definitions above). -/

/-- The targets, in input order, of the edges that survive filtering against
a given valid-id list and have the given source. -/
def targetsFrom (ids : List String) (edges : List (Option WorkflowEdge))
    (a : String) : List String :=
  edges.filterMap (fun e? => e?.bind (fun e =>
    if e.id ≠ "" ∧ e.source = a ∧ e.source ∈ ids ∧ e.target ∈ ids
    then some e.target else none))

/-- Modelled from the spec: "the sequence of targets of the surviving edges
with that source, in edge input order". -/
def survivingTargets (nodes : List (Option WorkflowNode))
    (edges : List (Option WorkflowEdge)) (a : String) : List String :=
  targetsFrom (validNodeIds nodes) edges a

/-- Modelled from the spec: a surviving edge of the validly filtered graph,
from `a` to `b`. -/
def survEdge (nodes : List (Option WorkflowNode))
    (edges : List (Option WorkflowEdge)) (a b : String) : Prop :=
  a ∈ validNodeIds nodes ∧ b ∈ validNodeIds nodes ∧
    ∃ e ∈ edges.filterMap (fun x => x), e.id ≠ "" ∧ e.source = a ∧ e.target = b

/-- Modelled from the spec: the surviving graph contains a directed cycle —
a non-empty path that starts and ends at the same node. -/
def hasCycleProp (nodes : List (Option WorkflowNode))
    (edges : List (Option WorkflowEdge)) : Prop :=
  ∃ v, Relation.TransGen (survEdge nodes edges) v v

/-- The out-edge relation of an adjacency structure. -/
def adjRel (adj : AdjList) (a b : String) : Prop := b ∈ adjGet adj a

/-! ### Facts about `dedupFirst` and `validNodeIds` -/

theorem mem_dedupFirst {x : String} : ∀ {l : List String}, x ∈ dedupFirst l ↔ x ∈ l := by
  intro l
  induction l with
  | nil => simp [dedupFirst]
  | cons y ys ih =>
    simp only [dedupFirst, List.mem_cons, List.mem_filter, decide_eq_true_eq]
    constructor
    · rintro (rfl | ⟨hx, _⟩)
      · exact Or.inl rfl
      · exact Or.inr (ih.mp hx)
    · rintro (rfl | hx)
      · exact Or.inl rfl
      · by_cases hxy : x = y
        · exact Or.inl hxy
        · exact Or.inr ⟨ih.mpr hx, hxy⟩

theorem nodup_dedupFirst : ∀ (l : List String), (dedupFirst l).Nodup := by
  intro l
  induction l with
  | nil => simp [dedupFirst]
  | cons y ys ih =>
    rw [dedupFirst, List.nodup_cons]
    refine ⟨fun hmem => ?_, List.Nodup.filter _ ih⟩
    have h2 := (List.mem_filter.mp hmem).2
    rw [decide_eq_true_eq] at h2
    exact h2 rfl

theorem dedupFirst_cons (y : String) (ys : List String) :
    dedupFirst (y :: ys) = y :: (dedupFirst ys).filter (fun z => decide (z ≠ y)) := rfl

theorem dedupFirst_append_of_not_mem {x : String} :
    ∀ {l : List String}, x ∉ l → dedupFirst (l ++ [x]) = dedupFirst l ++ [x] := by
  intro l
  induction l with
  | nil => intro _; simp [dedupFirst]
  | cons y ys ih =>
    intro hx
    have hxy : x ≠ y := fun h => hx (h ▸ List.mem_cons_self y ys)
    have hxs : x ∉ ys := fun h => hx (List.mem_cons_of_mem y h)
    have h1 : (y :: ys) ++ [x] = y :: (ys ++ [x]) := rfl
    rw [h1, dedupFirst_cons, dedupFirst_cons, ih hxs, List.filter_append]
    simp [hxy]

theorem dedupFirst_append_of_mem {x : String} :
    ∀ {l : List String}, x ∈ l → dedupFirst (l ++ [x]) = dedupFirst l := by
  intro l
  induction l with
  | nil => intro h; simp at h
  | cons y ys ih =>
    intro hx
    have h1 : (y :: ys) ++ [x] = y :: (ys ++ [x]) := rfl
    by_cases hmem : x ∈ ys
    · rw [h1, dedupFirst_cons, dedupFirst_cons, ih hmem]
    · have hxy : x = y := by
        rcases List.mem_cons.mp hx with h | h
        · exact h
        · exact absurd h hmem
      subst hxy
      rw [h1, dedupFirst_cons, dedupFirst_cons, dedupFirst_append_of_not_mem hmem,
        List.filter_append]
      simp [List.filter_cons]

theorem mem_rawIds {nodes : List (Option WorkflowNode)} {x : String} :
    x ∈ rawIds nodes ↔ ∃ n, some n ∈ nodes ∧ n.id = x ∧ x ≠ "" := by
  simp only [rawIds, List.mem_filterMap]
  constructor
  · rintro ⟨n?, hmem, hbind⟩
    rcases n? with _ | n
    · exact Option.noConfusion hbind
    · have hbind' : (if n.id = "" then none else some n.id) = some x := hbind
      by_cases hid : n.id = ""
      · rw [if_pos hid] at hbind'
        exact Option.noConfusion hbind'
      · rw [if_neg hid] at hbind'
        have hx : n.id = x := Option.some.inj hbind'
        exact ⟨n, hmem, hx, hx ▸ hid⟩
  · rintro ⟨n, hmem, rfl, hne⟩
    exact ⟨some n, hmem, by simp [hne]⟩

theorem mem_validNodeIds {nodes : List (Option WorkflowNode)} {x : String} :
    x ∈ validNodeIds nodes ↔ ∃ n, some n ∈ nodes ∧ n.id = x ∧ x ≠ "" := by
  rw [validNodeIds, mem_dedupFirst, mem_rawIds]

theorem ne_empty_of_mem_validNodeIds {nodes : List (Option WorkflowNode)} {x : String}
    (hx : x ∈ validNodeIds nodes) : x ≠ "" :=
  (mem_validNodeIds.mp hx).choose_spec.2.2

theorem rawIds_pyFilterNodes (nodes : List (Option WorkflowNode)) :
    rawIds (pyFilterNodes nodes) = rawIds nodes := by
  induction nodes with
  | nil => rfl
  | cons n? rest ih =>
    rcases n? with _ | n
    · simpa [pyFilterNodes, rawIds] using ih
    · by_cases hid : n.id = ""
      · simp only [pyFilterNodes, rawIds] at ih ⊢
        simp [hid, List.filter_cons, ih]
      · simp only [pyFilterNodes, rawIds] at ih ⊢
        simp [hid, List.filter_cons, ih]

theorem validNodeIds_pyFilterNodes (nodes : List (Option WorkflowNode)) :
    validNodeIds (pyFilterNodes nodes) = validNodeIds nodes := by
  rw [validNodeIds, validNodeIds, rawIds_pyFilterNodes]

/-! ### Characterization of the adjacency structure -/

theorem adjGet_adjAppend (m : AdjList) (s t a : String) :
    adjGet (adjAppend m s t) a = if a = s then adjGet m a ++ [t] else adjGet m a := by
  induction m with
  | nil =>
    by_cases h : a = s
    · subst h; simp [adjAppend, adjGet]
    · simp [adjAppend, adjGet, h, Ne.symm h]
  | cons p rest ih =>
    by_cases hp : p.1 = s
    · by_cases ha : a = s
      · subst ha
        simp [adjAppend, adjGet, hp]
      · have hpa : ¬ p.1 = a := fun h => ha ((h.symm.trans hp))
        have ha' : ¬ s = a := fun h => ha h.symm
        simp [adjAppend, adjGet, hp, hpa, ha, ha']
    · by_cases hpa : p.1 = a
      · have ha : ¬ a = s := fun h => hp (hpa.trans h)
        simp [adjAppend, adjGet, hp, hpa, ha]
      · simp [adjAppend, adjGet, hp, hpa, ih]

theorem adjAppend_keys_of_mem {m : AdjList} {s : String} (t : String)
    (h : s ∈ m.map Prod.fst) : (adjAppend m s t).map Prod.fst = m.map Prod.fst := by
  induction m with
  | nil => simp at h
  | cons p rest ih =>
    by_cases hp : p.1 = s
    · rw [adjAppend, if_pos hp]; simp
    · rw [adjAppend, if_neg hp]
      have hs : s ∈ rest.map Prod.fst := by
        rcases List.mem_map.mp h with ⟨q, hq, hq1⟩
        rcases List.mem_cons.mp hq with rfl | hq'
        · exact absurd hq1 hp
        · exact List.mem_map.mpr ⟨q, hq', hq1⟩
      simp [ih hs]

theorem adjGet_init (ids : List String) (a : String) :
    adjGet (ids.map (fun i => (i, ([] : List String)))) a = [] := by
  induction ids with
  | nil => rfl
  | cons i is ih =>
    rw [List.map_cons, adjGet]
    by_cases h : i = a <;> simp [h, ih]

theorem targetsFrom_nil (ids : List String) (a : String) :
    targetsFrom ids [] a = [] := rfl

theorem targetsFrom_cons_none (ids : List String) (rest : List (Option WorkflowEdge))
    (a : String) : targetsFrom ids (none :: rest) a = targetsFrom ids rest a := rfl

theorem targetsFrom_cons_pos {ids : List String} {e : WorkflowEdge} {a : String}
    (hcond : e.id ≠ "" ∧ e.source = a ∧ e.source ∈ ids ∧ e.target ∈ ids)
    (rest : List (Option WorkflowEdge)) :
    targetsFrom ids (some e :: rest) a = e.target :: targetsFrom ids rest a :=
  @List.filterMap_cons_some (Option WorkflowEdge) String
    (fun e? => e?.bind (fun e => if e.id ≠ "" ∧ e.source = a ∧ e.source ∈ ids ∧
      e.target ∈ ids then some e.target else none))
    (some e) rest e.target (if_pos hcond)

theorem targetsFrom_cons_neg {ids : List String} {e : WorkflowEdge} {a : String}
    (hcond : ¬(e.id ≠ "" ∧ e.source = a ∧ e.source ∈ ids ∧ e.target ∈ ids))
    (rest : List (Option WorkflowEdge)) :
    targetsFrom ids (some e :: rest) a = targetsFrom ids rest a :=
  @List.filterMap_cons_none (Option WorkflowEdge) String
    (fun e? => e?.bind (fun e => if e.id ≠ "" ∧ e.source = a ∧ e.source ∈ ids ∧
      e.target ∈ ids then some e.target else none))
    (some e) rest (if_neg hcond)

theorem foldl_buildStep_get (ids : List String) :
    ∀ (edges : List (Option WorkflowEdge)) (m : AdjList) (a : String),
      adjGet (edges.foldl (buildStep ids) m) a = adjGet m a ++ targetsFrom ids edges a := by
  intro edges
  induction edges with
  | nil => intro m a; rw [List.foldl_nil, targetsFrom_nil, List.append_nil]
  | cons e? rest ih =>
    intro m a
    rw [List.foldl_cons]
    rcases e? with _ | e
    · rw [show buildStep ids m none = m from rfl, ih, targetsFrom_cons_none]
    · by_cases hid : e.id = ""
      · have hcond : ¬(e.id ≠ "" ∧ e.source = a ∧ e.source ∈ ids ∧ e.target ∈ ids) :=
          fun h => h.1 hid
        rw [show buildStep ids m (some e) = m by simp [buildStep, hid], ih,
          targetsFrom_cons_neg hcond]
      · by_cases hmm : e.source ∈ ids ∧ e.target ∈ ids
        · rw [show buildStep ids m (some e) = adjAppend m e.source e.target by
            simp [buildStep, hid, hmm], ih, adjGet_adjAppend]
          by_cases ha : a = e.source
          · have hcond : e.id ≠ "" ∧ e.source = a ∧ e.source ∈ ids ∧ e.target ∈ ids :=
              ⟨hid, ha.symm, hmm.1, hmm.2⟩
            rw [targetsFrom_cons_pos hcond, if_pos ha, List.append_assoc,
              List.singleton_append]
          · have hcond : ¬(e.id ≠ "" ∧ e.source = a ∧ e.source ∈ ids ∧ e.target ∈ ids) :=
              fun h => ha h.2.1.symm
            rw [targetsFrom_cons_neg hcond, if_neg ha]
        · have hcond : ¬(e.id ≠ "" ∧ e.source = a ∧ e.source ∈ ids ∧ e.target ∈ ids) :=
            fun h => hmm ⟨h.2.2.1, h.2.2.2⟩
          rw [show buildStep ids m (some e) = m by simp [buildStep, hid, hmm], ih,
            targetsFrom_cons_neg hcond]

theorem buildFromIds_get (ids : List String) (edges : List (Option WorkflowEdge))
    (a : String) : adjGet (buildFromIds ids edges) a = targetsFrom ids edges a := by
  rw [buildFromIds, foldl_buildStep_get, adjGet_init, List.nil_append]

theorem foldl_buildStep_keys (ids : List String) :
    ∀ (edges : List (Option WorkflowEdge)) (m : AdjList), ids ⊆ m.map Prod.fst →
      (edges.foldl (buildStep ids) m).map Prod.fst = m.map Prod.fst := by
  intro edges
  induction edges with
  | nil => intro m _; rfl
  | cons e? rest ih =>
    intro m hids
    rw [List.foldl_cons]
    rcases e? with _ | e
    · exact ih m hids
    · by_cases hid : e.id = ""
      · rw [show buildStep ids m (some e) = m by simp [buildStep, hid]]
        exact ih m hids
      · by_cases hmm : e.source ∈ ids ∧ e.target ∈ ids
        · rw [show buildStep ids m (some e) = adjAppend m e.source e.target by
            simp [buildStep, hid, hmm]]
          have hkeys := adjAppend_keys_of_mem e.target (hids hmm.1)
          rw [ih _ (by rw [hkeys]; exact hids), hkeys]
        · rw [show buildStep ids m (some e) = m by simp [buildStep, hid, hmm]]
          exact ih m hids

theorem buildFromIds_keys (ids : List String) (edges : List (Option WorkflowEdge)) :
    (buildFromIds ids edges).map Prod.fst = ids := by
  have hinit : (ids.map (fun i => (i, ([] : List String)))).map Prod.fst = ids := by
    rw [List.map_map]; exact List.map_id ids
  rw [buildFromIds, foldl_buildStep_keys ids edges _ (by rw [hinit]; exact fun x h => h),
    hinit]

theorem buildAdjacencyList_get (nodes : List (Option WorkflowNode))
    (edges : List (Option WorkflowEdge)) (a : String) :
    adjGet (buildAdjacencyList nodes edges) a = survivingTargets nodes edges a :=
  buildFromIds_get _ _ _

theorem buildAdjacencyList_keys (nodes : List (Option WorkflowNode))
    (edges : List (Option WorkflowEdge)) :
    (buildAdjacencyList nodes edges).map Prod.fst = validNodeIds nodes :=
  buildFromIds_keys _ _

theorem mem_targetsFrom {ids : List String} {edges : List (Option WorkflowEdge)}
    {a b : String} :
    b ∈ targetsFrom ids edges a ↔
      a ∈ ids ∧ b ∈ ids ∧
        ∃ e ∈ edges.filterMap (fun x => x), e.id ≠ "" ∧ e.source = a ∧ e.target = b := by
  constructor
  · intro hmem
    rcases List.mem_filterMap.mp hmem with ⟨e?, hin, hbind⟩
    rcases e? with _ | e
    · exact Option.noConfusion hbind
    · have hbind' : (if e.id ≠ "" ∧ e.source = a ∧ e.source ∈ ids ∧ e.target ∈ ids
          then some e.target else none) = some b := hbind
      by_cases hcond : e.id ≠ "" ∧ e.source = a ∧ e.source ∈ ids ∧ e.target ∈ ids
      · rw [if_pos hcond] at hbind'
        have hb : e.target = b := Option.some.inj hbind'
        refine ⟨hcond.2.1 ▸ hcond.2.2.1, hb ▸ hcond.2.2.2, e, ?_, hcond.1, hcond.2.1, hb⟩
        exact List.mem_filterMap.mpr ⟨some e, hin, rfl⟩
      · rw [if_neg hcond] at hbind'
        exact Option.noConfusion hbind'
  · rintro ⟨ha, hb, e, hmem, hid, hsrc, htgt⟩
    rcases List.mem_filterMap.mp hmem with ⟨e?, hin, hsome⟩
    rcases e? with _ | e'
    · exact Option.noConfusion hsome
    · have he : e' = e := Option.some.inj hsome
      subst he
      apply List.mem_filterMap.mpr
      refine ⟨some e', hin, ?_⟩
      have hres : (if e'.id ≠ "" ∧ e'.source = a ∧ e'.source ∈ ids ∧ e'.target ∈ ids
          then some e'.target else none) = some b := by
        rw [if_pos ⟨hid, hsrc, hsrc ▸ ha, htgt ▸ hb⟩, htgt]
      exact hres

theorem mem_survivingTargets {nodes : List (Option WorkflowNode)}
    {edges : List (Option WorkflowEdge)} {a b : String} :
    b ∈ survivingTargets nodes edges a ↔ survEdge nodes edges a b := by
  rw [survivingTargets, mem_targetsFrom, survEdge]

theorem pyFilterEdges_cons_none (rest : List (Option WorkflowEdge)) :
    pyFilterEdges (none :: rest) = pyFilterEdges rest := rfl

theorem pyFilterEdges_cons_keep {e : WorkflowEdge}
    (h : e.id ≠ "" ∧ e.source ≠ "" ∧ e.target ≠ "") (rest : List (Option WorkflowEdge)) :
    pyFilterEdges (some e :: rest) = some e :: pyFilterEdges rest := by
  simp only [pyFilterEdges, List.filter_cons]
  rw [if_pos (by simp [h.1, h.2.1, h.2.2])]

theorem pyFilterEdges_cons_drop {e : WorkflowEdge}
    (h : ¬(e.id ≠ "" ∧ e.source ≠ "" ∧ e.target ≠ "")) (rest : List (Option WorkflowEdge)) :
    pyFilterEdges (some e :: rest) = pyFilterEdges rest := by
  simp only [pyFilterEdges, List.filter_cons]
  rw [if_neg (by simpa [and_assoc] using h)]

theorem targetsFrom_pyFilterEdges {ids : List String} (hids : "" ∉ ids)
    (edges : List (Option WorkflowEdge)) (a : String) :
    targetsFrom ids (pyFilterEdges edges) a = targetsFrom ids edges a := by
  induction edges with
  | nil => rfl
  | cons e? rest ih =>
    rcases e? with _ | e
    · rw [pyFilterEdges_cons_none, ih, targetsFrom_cons_none]
    · by_cases hkeep : e.id ≠ "" ∧ e.source ≠ "" ∧ e.target ≠ ""
      · rw [pyFilterEdges_cons_keep hkeep]
        by_cases hcond : e.id ≠ "" ∧ e.source = a ∧ e.source ∈ ids ∧ e.target ∈ ids
        · rw [targetsFrom_cons_pos hcond, targetsFrom_cons_pos hcond, ih]
        · rw [targetsFrom_cons_neg hcond, targetsFrom_cons_neg hcond, ih]
      · have hcond : ¬(e.id ≠ "" ∧ e.source = a ∧ e.source ∈ ids ∧ e.target ∈ ids) := by
          intro hc
          exact hkeep ⟨hc.1, fun hs => hids (hs ▸ hc.2.2.1), fun ht => hids (ht ▸ hc.2.2.2)⟩
        rw [pyFilterEdges_cons_drop hkeep, ih, targetsFrom_cons_neg hcond]

theorem validNodeIds_not_empty_mem (nodes : List (Option WorkflowNode)) :
    "" ∉ validNodeIds nodes := fun h => ne_empty_of_mem_validNodeIds h rfl

theorem survivingTargets_filtered (nodes : List (Option WorkflowNode))
    (edges : List (Option WorkflowEdge)) (a : String) :
    survivingTargets (pyFilterNodes nodes) (pyFilterEdges edges) a =
      survivingTargets nodes edges a := by
  rw [survivingTargets, survivingTargets, validNodeIds_pyFilterNodes,
    targetsFrom_pyFilterEdges (validNodeIds_not_empty_mem nodes)]

/-! ### Unfolding equations for the traversal -/

theorem hasCycleDfs_zero (adj : AdjList) (u : String) (vis rec : Finset String) :
    hasCycleDfs adj 0 u vis rec = none := by
  rw [hasCycleDfs]

theorem hasCycleDfs_succ (adj : AdjList) (fuel : Nat) (u : String)
    (vis rec : Finset String) :
    hasCycleDfs adj (fuel + 1) u vis rec =
      match dfsNeighbors adj fuel (adjGet adj u) (insert u vis) (insert u rec) with
      | none => none
      | some (true, v, r) => some (true, v, r)
      | some (false, v, r) => some (false, v, r.erase u) := by
  rw [hasCycleDfs]

theorem dfsNeighbors_nil (adj : AdjList) (fuel : Nat) (vis rec : Finset String) :
    dfsNeighbors adj fuel [] vis rec = some (false, vis, rec) := by
  rw [dfsNeighbors]

theorem dfsNeighbors_cons (adj : AdjList) (fuel : Nat) (n : String) (rest : List String)
    (vis rec : Finset String) :
    dfsNeighbors adj fuel (n :: rest) vis rec =
      if n ∈ rec then some (true, vis, rec)
      else if n ∉ vis then
        match hasCycleDfs adj fuel n vis rec with
        | none => none
        | some (true, v, r) => some (true, v, r)
        | some (false, v, r) => dfsNeighbors adj fuel rest v r
      else dfsNeighbors adj fuel rest vis rec := by
  rw [dfsNeighbors]

theorem dfsRoots_nil (adj : AdjList) (fuel : Nat) (vis rec : Finset String) :
    dfsRoots adj fuel [] vis rec = some false := by
  rw [dfsRoots]

theorem dfsRoots_cons (adj : AdjList) (fuel : Nat) (r : String) (rest : List String)
    (vis rec : Finset String) :
    dfsRoots adj fuel (r :: rest) vis rec =
      if r ∈ vis then dfsRoots adj fuel rest vis rec
      else
        match hasCycleDfs adj fuel r vis rec with
        | none => none
        | some (true, _, _) => some true
        | some (false, v, rs) => dfsRoots adj fuel rest v rs := by
  rw [dfsRoots]

/-! ### Basic state invariants of the traversal (any adjacency structure, any
fuel): `visited` only grows, the node under exploration ends up visited, the
recursion stack stays inside `visited`, and on a cycle-free return the stack
is restored exactly and every out-neighbor has been visited. -/

theorem neighbors_basic_of (adj : AdjList) (fuel : Nat)
    (hdfs : ∀ (u : String) (vis rec : Finset String) (b : Bool) (v' r' : Finset String),
      hasCycleDfs adj fuel u vis rec = some (b, v', r') → rec ⊆ vis → u ∉ vis →
      vis ⊆ v' ∧ u ∈ v' ∧ r' ⊆ v' ∧
        (b = false → r' = rec ∧ ∀ n ∈ adjGet adj u, n ∈ v')) :
    ∀ (ns : List String) (vis rec : Finset String) (b : Bool) (v' r' : Finset String),
      dfsNeighbors adj fuel ns vis rec = some (b, v', r') → rec ⊆ vis →
      vis ⊆ v' ∧ r' ⊆ v' ∧ (b = false → r' = rec ∧ ∀ n ∈ ns, n ∈ v') := by
  intro ns
  induction ns with
  | nil =>
    intro vis rec b v' r' heq hsub
    rw [dfsNeighbors_nil] at heq
    obtain ⟨hb, hv, hr⟩ : false = b ∧ vis = v' ∧ rec = r' := by
      simpa using heq
    subst hb; subst hv; subst hr
    exact ⟨fun _ h => h, hsub, fun _ => ⟨rfl, by simp⟩⟩
  | cons n rest ih =>
    intro vis rec b v' r' heq hsub
    rw [dfsNeighbors_cons] at heq
    by_cases hn : n ∈ rec
    · rw [if_pos hn] at heq
      obtain ⟨hb, hv, hr⟩ : true = b ∧ vis = v' ∧ rec = r' := by
        simpa using heq
      subst hb; subst hv; subst hr
      exact ⟨fun _ h => h, hsub, fun hfb => absurd hfb (by simp)⟩
    · rw [if_neg hn] at heq
      by_cases hnv : n ∈ vis
      · rw [if_neg (not_not_intro hnv)] at heq
        obtain ⟨h1, h2, h3⟩ := ih vis rec b v' r' heq hsub
        refine ⟨h1, h2, fun hfb => ⟨(h3 hfb).1, fun m hm => ?_⟩⟩
        rcases List.mem_cons.mp hm with rfl | hm'
        · exact h1 hnv
        · exact (h3 hfb).2 m hm'
      · rw [if_pos hnv] at heq
        cases hd : hasCycleDfs adj fuel n vis rec with
        | none =>
          rw [hd] at heq
          exact Option.noConfusion (show (none : Option (Bool × Finset String ×
            Finset String)) = some (b, v', r') from heq)
        | some out =>
          rcases out with ⟨b₂, v₂, r₂⟩
          rw [hd] at heq
          obtain ⟨hv1, hn1, hr1, hfalse1⟩ := hdfs n vis rec b₂ v₂ r₂ hd hsub hnv
          cases b₂ with
          | true =>
            obtain ⟨hb, hv, hr⟩ : true = b ∧ v₂ = v' ∧ r₂ = r' := by
              simpa using heq
            subst hb; subst hv; subst hr
            exact ⟨hv1, hr1, fun hfb => absurd hfb (by simp)⟩
          | false =>
            have heq' : dfsNeighbors adj fuel rest v₂ r₂ = some (b, v', r') := heq
            obtain ⟨hrec, hnbrs⟩ := hfalse1 rfl
            have hsub2 : r₂ ⊆ v₂ := hrec ▸ fun x hx => hv1 (hsub hx)
            obtain ⟨h1, h2, h3⟩ := ih v₂ r₂ b v' r' heq' hsub2
            refine ⟨fun x hx => h1 (hv1 hx), h2, fun hfb => ⟨(h3 hfb).1.trans hrec,
              fun m hm => ?_⟩⟩
            rcases List.mem_cons.mp hm with rfl | hm'
            · exact h1 hn1
            · exact (h3 hfb).2 m hm'

theorem dfs_basic (adj : AdjList) :
    ∀ (fuel : Nat) (u : String) (vis rec : Finset String) (b : Bool)
      (v' r' : Finset String),
      hasCycleDfs adj fuel u vis rec = some (b, v', r') → rec ⊆ vis → u ∉ vis →
      vis ⊆ v' ∧ u ∈ v' ∧ r' ⊆ v' ∧
        (b = false → r' = rec ∧ ∀ n ∈ adjGet adj u, n ∈ v') := by
  intro fuel
  induction fuel with
  | zero =>
    intro u vis rec b v' r' heq _ _
    rw [hasCycleDfs_zero] at heq
    exact Option.noConfusion heq
  | succ fuel ih =>
    intro u vis rec b v' r' heq hsub hu
    rw [hasCycleDfs_succ] at heq
    cases hd : dfsNeighbors adj fuel (adjGet adj u) (insert u vis) (insert u rec) with
    | none =>
      rw [hd] at heq
      exact Option.noConfusion (show (none : Option (Bool × Finset String ×
        Finset String)) = some (b, v', r') from heq)
    | some out =>
      rcases out with ⟨b₂, v₂, r₂⟩
      rw [hd] at heq
      have hurec : u ∉ rec := fun h => hu (hsub h)
      obtain ⟨h1, h2, h3⟩ := neighbors_basic_of adj fuel ih
        (adjGet adj u) (insert u vis) (insert u rec) b₂ v₂ r₂ hd
        (Finset.insert_subset_insert u hsub)
      cases b₂ with
      | true =>
        obtain ⟨hb, hv, hr⟩ : true = b ∧ v₂ = v' ∧ r₂ = r' := by
          simpa using heq
        subst hb; subst hv; subst hr
        refine ⟨fun x hx => h1 (Finset.mem_insert_of_mem hx),
          h1 (Finset.mem_insert_self u vis), h2, fun hfb => absurd hfb (by simp)⟩
      | false =>
        obtain ⟨hb, hv, hr⟩ : false = b ∧ v₂ = v' ∧ r₂.erase u = r' := by
          simpa using heq
        subst hb; subst hv; subst hr
        obtain ⟨hrec, hnbrs⟩ := h3 rfl
        have hr' : r₂.erase u = rec := by
          rw [hrec, Finset.erase_insert hurec]
        refine ⟨fun x hx => h1 (Finset.mem_insert_of_mem hx),
          h1 (Finset.mem_insert_self u vis), ?_, fun _ => ⟨hr', hnbrs⟩⟩
        rw [hr']
        exact fun x hx => h1 (Finset.mem_insert_of_mem (hsub hx))

/-! ### Completion-order certificates

When a node leaves the recursion stack without a detected cycle, all of its
out-neighbors completed strictly earlier.  The completed region therefore
carries a list certificate (most recently completed first) whose edges all
point into the tail, which makes it acyclic. -/

/-- Each listed node's out-neighbors appear strictly later in the list. -/
def CompOrder (adj : AdjList) : List String → Prop
  | [] => True
  | x :: xs => (∀ b ∈ adjGet adj x, b ∈ xs) ∧ CompOrder adj xs

theorem compOrder_cons {adj : AdjList} {x : String} {xs : List String} :
    CompOrder adj (x :: xs) ↔ (∀ b ∈ adjGet adj x, b ∈ xs) ∧ CompOrder adj xs :=
  Iff.rfl

/-- Traversal-state invariant: the completed nodes (`visited` minus the
recursion stack) carry a completion-order certificate. -/
def DfsInv (adj : AdjList) (vis rec : Finset String) : Prop :=
  ∃ L, CompOrder adj L ∧ L.Nodup ∧ L.toFinset = vis \ rec

theorem compOrder_closed {adj : AdjList} :
    ∀ {L : List String}, CompOrder adj L → ∀ y ∈ L, ∀ b ∈ adjGet adj y, b ∈ L := by
  intro L
  induction L with
  | nil => intro _ y hy; simp at hy
  | cons x xs ih =>
    intro hco y hy b hb
    rcases List.mem_cons.mp hy with rfl | hy'
    · exact List.mem_cons_of_mem _ (hco.1 b hb)
    · exact List.mem_cons_of_mem _ (ih hco.2 y hy' b hb)

theorem compOrder_reach {adj : AdjList} {L : List String} (hco : CompOrder adj L) :
    ∀ {a c : String}, Relation.ReflTransGen (adjRel adj) a c → a ∈ L → c ∈ L := by
  intro a c h
  induction h with
  | refl => exact fun h => h
  | tail _ hbc ih => exact fun ha => compOrder_closed hco _ (ih ha) _ hbc

theorem compOrder_no_cycle {adj : AdjList} :
    ∀ {L : List String}, CompOrder adj L → L.Nodup → ∀ v ∈ L,
      ¬ Relation.TransGen (adjRel adj) v v := by
  intro L
  induction L with
  | nil => intro _ _ v hv; simp at hv
  | cons x xs ih =>
    intro hco hnd v hv hcyc
    rcases List.mem_cons.mp hv with rfl | hv'
    · rcases Relation.TransGen.head'_iff.mp hcyc with ⟨b, hvb, hbv⟩
      have hb : b ∈ xs := hco.1 b hvb
      have hx : v ∈ xs := compOrder_reach hco.2 hbv hb
      exact (List.nodup_cons.mp hnd).1 hx
    · exact ih hco.2 (List.nodup_cons.mp hnd).2 v hv' hcyc

theorem sdiff_insert_insert {u : String} {vis rec : Finset String} (hu : u ∉ vis) :
    (insert u vis) \ (insert u rec) = vis \ rec := by
  ext x
  simp only [Finset.mem_sdiff, Finset.mem_insert]
  constructor
  · rintro ⟨h1 | h1, h2⟩
    · exact absurd (Or.inl h1) h2
    · exact ⟨h1, fun h => h2 (Or.inr h)⟩
  · rintro ⟨h1, h2⟩
    refine ⟨Or.inr h1, ?_⟩
    rintro (rfl | h3)
    · exact hu h1
    · exact h2 h3

theorem insert_sdiff_finish {u : String} {vv rec : Finset String}
    (hu1 : u ∈ vv) (hu2 : u ∉ rec) :
    insert u (vv \ insert u rec) = vv \ rec := by
  ext x
  simp only [Finset.mem_insert, Finset.mem_sdiff]
  constructor
  · rintro (rfl | ⟨h1, h2⟩)
    · exact ⟨hu1, hu2⟩
    · exact ⟨h1, fun h => h2 (Or.inr h)⟩
  · rintro ⟨h1, h2⟩
    by_cases hx : x = u
    · exact Or.inl hx
    · exact Or.inr ⟨h1, fun h => h.elim hx h2⟩

/-! ### Full functional specification of the traversal -/

/-- The depth-first visit from `u` is correct at fuel `fuel`: it terminates
normally, reports `true` only when the graph really has a cycle, and on
`false` it restores the stack, grows `visited`, and maintains the
completion-order invariant. -/
def DfsOk (adj : AdjList) (V : Finset String) (fuel : Nat) : Prop :=
  ∀ (u : String) (vis rec : Finset String),
    u ∈ V → u ∉ vis → vis ⊆ V → rec ⊆ vis →
    (∀ x ∈ rec, Relation.ReflTransGen (adjRel adj) x u) →
    DfsInv adj vis rec → (V \ vis).card < fuel →
    ∃ b v' r', hasCycleDfs adj fuel u vis rec = some (b, v', r') ∧
      (b = true → ∃ w, Relation.TransGen (adjRel adj) w w) ∧
      (b = false → r' = rec ∧ vis ⊆ v' ∧ u ∈ v' ∧ v' ⊆ V ∧ DfsInv adj v' rec)

theorem dfsNeighbors_ok (adj : AdjList) (V : Finset String)
    (hV : ∀ a b, b ∈ adjGet adj a → a ∈ V ∧ b ∈ V) (fuel : Nat)
    (ih : DfsOk adj V fuel) :
    ∀ (ns : List String) (u : String) (vis rec : Finset String),
      u ∈ rec → vis ⊆ V → rec ⊆ vis →
      (∀ n ∈ ns, n ∈ adjGet adj u) →
      (∀ x ∈ rec, Relation.ReflTransGen (adjRel adj) x u) →
      DfsInv adj vis rec → (V \ vis).card < fuel →
      ∃ b v' r', dfsNeighbors adj fuel ns vis rec = some (b, v', r') ∧
        (b = true → ∃ w, Relation.TransGen (adjRel adj) w w) ∧
        (b = false → r' = rec ∧ vis ⊆ v' ∧ v' ⊆ V ∧ DfsInv adj v' rec ∧
          ∀ n ∈ ns, n ∈ v' ∧ n ∉ rec) := by
  intro ns
  induction ns with
  | nil =>
    intro u vis rec hurec hvV hrv hns hpath hinv hcard
    exact ⟨false, vis, rec, dfsNeighbors_nil adj fuel vis rec,
      fun h => absurd h (by simp),
      fun _ => ⟨rfl, Finset.Subset.refl vis, hvV, hinv, by simp⟩⟩
  | cons n rest ihl =>
    intro u vis rec hurec hvV hrv hns hpath hinv hcard
    have hn_adj : n ∈ adjGet adj u := hns n (List.mem_cons_self n rest)
    by_cases hn : n ∈ rec
    · refine ⟨true, vis, rec, ?_, fun _ => ?_, fun h => absurd h (by simp)⟩
      · rw [dfsNeighbors_cons, if_pos hn]
      · exact ⟨n, Relation.TransGen.tail' (hpath n hn) hn_adj⟩
    · by_cases hnv : n ∈ vis
      · obtain ⟨b, v', r', heq, htr, hfa⟩ := ihl u vis rec hurec hvV hrv
          (fun m hm => hns m (List.mem_cons_of_mem n hm)) hpath hinv hcard
        refine ⟨b, v', r', ?_, htr, fun hfb => ?_⟩
        · rw [dfsNeighbors_cons, if_neg hn, if_neg (not_not_intro hnv)]
          exact heq
        · obtain ⟨h1, h2, h3, h4, h5⟩ := hfa hfb
          refine ⟨h1, h2, h3, h4, fun m hm => ?_⟩
          rcases List.mem_cons.mp hm with rfl | hm'
          · exact ⟨h2 hnv, hn⟩
          · exact h5 m hm'
      · have hnV : n ∈ V := (hV u n hn_adj).2
        have hpath2 : ∀ x ∈ rec, Relation.ReflTransGen (adjRel adj) x n :=
          fun x hx => Relation.ReflTransGen.tail (hpath x hx) hn_adj
        obtain ⟨b₂, v₂, r₂, heq2, htr2, hfa2⟩ := ih n vis rec hnV hnv hvV hrv
          hpath2 hinv hcard
        cases b₂ with
        | true =>
          refine ⟨true, v₂, r₂, ?_, htr2, fun h => absurd h (by simp)⟩
          rw [dfsNeighbors_cons, if_neg hn, if_pos hnv, heq2]
        | false =>
          obtain ⟨hrec2, hvis2, hn2, hV2, hinv2⟩ := hfa2 rfl
          rw [hrec2] at heq2
          obtain ⟨b₃, v₃, r₃, heq3, htr3, hfa3⟩ := ihl u v₂ rec hurec hV2
            (fun x hx => hvis2 (hrv hx))
            (fun m hm => hns m (List.mem_cons_of_mem n hm)) hpath hinv2
            (lt_of_le_of_lt (Finset.card_le_card
              (Finset.sdiff_subset_sdiff (Finset.Subset.refl V) hvis2)) hcard)
          refine ⟨b₃, v₃, r₃, ?_, htr3, fun hfb => ?_⟩
          · rw [dfsNeighbors_cons, if_neg hn, if_pos hnv, heq2]
            exact heq3
          · obtain ⟨h1, h2, h3, h4, h5⟩ := hfa3 hfb
            refine ⟨h1, fun x hx => h2 (hvis2 hx), h3, h4, fun m hm => ?_⟩
            rcases List.mem_cons.mp hm with rfl | hm'
            · exact ⟨h2 hn2, hn⟩
            · exact h5 m hm'

theorem dfs_ok (adj : AdjList) (V : Finset String)
    (hV : ∀ a b, b ∈ adjGet adj a → a ∈ V ∧ b ∈ V) :
    ∀ fuel, DfsOk adj V fuel := by
  intro fuel
  induction fuel with
  | zero =>
    intro u vis rec _ _ _ _ _ _ hcard
    exact absurd hcard (by simp)
  | succ fuel ih =>
    intro u vis rec huV hunv hvV hrv hpath hinv hcard
    have hurec : u ∉ rec := fun h => hunv (hrv h)
    have hcard2 : (V \ insert u vis).card < fuel := by
      have hmem : u ∈ V \ vis := Finset.mem_sdiff.mpr ⟨huV, hunv⟩
      have hpos : 0 < (V \ vis).card := Finset.card_pos.mpr ⟨u, hmem⟩
      have herase : V \ insert u vis = (V \ vis).erase u := by
        ext x
        simp only [Finset.mem_sdiff, Finset.mem_insert, Finset.mem_erase]
        constructor
        · rintro ⟨h1, h2⟩
          exact ⟨fun h => h2 (Or.inl h), h1, fun h => h2 (Or.inr h)⟩
        · rintro ⟨h1, h2, h3⟩
          exact ⟨h2, fun h => h.elim h1 h3⟩
      rw [herase, Finset.card_erase_of_mem hmem]
      omega
    have hinv2 : DfsInv adj (insert u vis) (insert u rec) := by
      obtain ⟨L, hco, hnd, hts⟩ := hinv
      exact ⟨L, hco, hnd, by rw [sdiff_insert_insert hunv]; exact hts⟩
    have hpath2 : ∀ x ∈ insert u rec, Relation.ReflTransGen (adjRel adj) x u := by
      intro x hx
      rcases Finset.mem_insert.mp hx with rfl | hx'
      · exact Relation.ReflTransGen.refl
      · exact hpath x hx'
    obtain ⟨b₂, v₂, r₂, heq2, htr2, hfa2⟩ := dfsNeighbors_ok adj V hV fuel ih
      (adjGet adj u) u (insert u vis) (insert u rec)
      (Finset.mem_insert_self u rec)
      (Finset.insert_subset_iff.mpr ⟨huV, hvV⟩)
      (Finset.insert_subset_insert u hrv)
      (fun m hm => hm) hpath2 hinv2 hcard2
    cases b₂ with
    | true =>
      refine ⟨true, v₂, r₂, ?_, htr2, fun h => absurd h (by simp)⟩
      rw [hasCycleDfs_succ, heq2]
    | false =>
      obtain ⟨hrec2, hvis2, hV2, hinv2b, hnbrs⟩ := hfa2 rfl
      subst hrec2
      refine ⟨false, v₂, (insert u rec).erase u, ?_, fun h => absurd h (by simp),
        fun _ => ?_⟩
      · rw [hasCycleDfs_succ, heq2]
      · rw [Finset.erase_insert hurec]
        refine ⟨rfl, fun x hx => hvis2 (Finset.mem_insert_of_mem hx),
          hvis2 (Finset.mem_insert_self u vis), hV2, ?_⟩
        obtain ⟨L, hco, hnd, hts⟩ := hinv2b
        refine ⟨u :: L, compOrder_cons.mpr ⟨fun m hm => ?_, hco⟩, ?_, ?_⟩
        · rw [← List.mem_toFinset, hts]
          exact Finset.mem_sdiff.mpr ⟨(hnbrs m hm).1, (hnbrs m hm).2⟩
        · rw [List.nodup_cons]
          refine ⟨fun hu => ?_, hnd⟩
          have hmem := List.mem_toFinset.mpr hu
          rw [hts] at hmem
          exact (Finset.mem_sdiff.mp hmem).2 (Finset.mem_insert_self u rec)
        · rw [List.toFinset_cons, hts]
          exact insert_sdiff_finish (hvis2 (Finset.mem_insert_self u vis)) hurec

theorem dfsRoots_ok (adj : AdjList) (V : Finset String)
    (hV : ∀ a b, b ∈ adjGet adj a → a ∈ V ∧ b ∈ V) (fuel : Nat) :
    ∀ (roots : List String) (vis : Finset String),
      (∀ r ∈ roots, r ∈ V) → vis ⊆ V → DfsInv adj vis ∅ → (V \ vis).card < fuel →
      ∃ b, dfsRoots adj fuel roots vis ∅ = some b ∧
        (b = true → ∃ w, Relation.TransGen (adjRel adj) w w) ∧
        (b = false → ∃ vis', vis ⊆ vis' ∧ vis' ⊆ V ∧ (∀ r ∈ roots, r ∈ vis') ∧
          DfsInv adj vis' ∅) := by
  intro roots
  induction roots with
  | nil =>
    intro vis hroots hvV hinv hcard
    exact ⟨false, dfsRoots_nil adj fuel vis ∅, fun h => absurd h (by simp),
      fun _ => ⟨vis, Finset.Subset.refl vis, hvV, by simp, hinv⟩⟩
  | cons r rest ih =>
    intro vis hroots hvV hinv hcard
    by_cases hrv : r ∈ vis
    · obtain ⟨b, heq, htr, hfa⟩ := ih vis
        (fun x hx => hroots x (List.mem_cons_of_mem r hx)) hvV hinv hcard
      refine ⟨b, ?_, htr, fun hfb => ?_⟩
      · rw [dfsRoots_cons, if_pos hrv]; exact heq
      · obtain ⟨vis', h1, h2, h3, h4⟩ := hfa hfb
        refine ⟨vis', h1, h2, fun x hx => ?_, h4⟩
        rcases List.mem_cons.mp hx with rfl | hx'
        · exact h1 hrv
        · exact h3 x hx'
    · obtain ⟨b₂, v₂, r₂, heq2, htr2, hfa2⟩ := dfs_ok adj V hV fuel r vis ∅
        (hroots r (List.mem_cons_self r rest)) hrv hvV (Finset.empty_subset vis)
        (fun x hx => absurd hx (Finset.not_mem_empty x)) hinv hcard
      cases b₂ with
      | true =>
        refine ⟨true, ?_, htr2, fun h => absurd h (by simp)⟩
        rw [dfsRoots_cons, if_neg hrv, heq2]
      | false =>
        obtain ⟨hrec2, hvis2, hr2, hV2, hinv2⟩ := hfa2 rfl
        subst hrec2
        obtain ⟨b₃, heq3, htr3, hfa3⟩ := ih v₂
          (fun x hx => hroots x (List.mem_cons_of_mem r hx)) hV2 hinv2
          (lt_of_le_of_lt (Finset.card_le_card
            (Finset.sdiff_subset_sdiff (Finset.Subset.refl V) hvis2)) hcard)
        refine ⟨b₃, ?_, htr3, fun hfb => ?_⟩
        · rw [dfsRoots_cons, if_neg hrv, heq2]
          exact heq3
        · obtain ⟨vis', h1, h2, h3, h4⟩ := hfa3 hfb
          refine ⟨vis', fun x hx => h1 (hvis2 hx), h2, fun x hx => ?_, h4⟩
          rcases List.mem_cons.mp hx with rfl | hx'
          · exact h1 hr2
          · exact h3 x hx'

/-! ### Assembly: correctness of `detect_cycles` -/

theorem not_hasCycleProp_of_no_valid_ids {nodes : List (Option WorkflowNode)}
    {edges : List (Option WorkflowEdge)} (h : validNodeIds nodes = []) :
    ¬ hasCycleProp nodes edges := by
  rintro ⟨v, hcyc⟩
  rcases Relation.TransGen.head'_iff.mp hcyc with ⟨b, hvb, _⟩
  have := hvb.1
  rw [h] at this
  simp at this

theorem validNodeIds_nil : validNodeIds ([] : List (Option WorkflowNode)) = [] := rfl

theorem detectCoreRoots_ok (nodes : List (Option WorkflowNode))
    (edges : List (Option WorkflowEdge)) (roots : List String)
    (hperm : roots.Perm (validNodeIds nodes)) :
    ∃ b, detectCyclesCoreRoots nodes edges roots = some b ∧
      (b = true ↔ hasCycleProp nodes edges) := by
  by_cases hne : nodes.isEmpty = true
  · refine ⟨false, by rw [detectCyclesCoreRoots, if_pos hne], ?_⟩
    have hnil : nodes = [] := List.isEmpty_iff.mp hne
    subst hnil
    simp only [Bool.false_eq_true, false_iff]
    exact not_hasCycleProp_of_no_valid_ids validNodeIds_nil
  · by_cases hlen : (pyFilterNodes nodes).length = 0
    · refine ⟨false, ?_, ?_⟩
      · rw [detectCyclesCoreRoots, if_neg hne]
        simp [hlen]
      · have hnil : pyFilterNodes nodes = [] := List.length_eq_zero.mp hlen
        have hids : validNodeIds nodes = [] := by
          rw [← validNodeIds_pyFilterNodes, hnil, validNodeIds_nil]
        simp only [Bool.false_eq_true, false_iff]
        exact not_hasCycleProp_of_no_valid_ids hids
    · have hres : detectCyclesCoreRoots nodes edges roots =
          dfsRoots (buildAdjacencyList (pyFilterNodes nodes) (pyFilterEdges edges))
            (roots.length + 1) roots ∅ ∅ := by
        rw [detectCyclesCoreRoots, if_neg hne]
        simp [hlen]
      have hadj : ∀ a, adjGet (buildAdjacencyList (pyFilterNodes nodes)
          (pyFilterEdges edges)) a = survivingTargets nodes edges a :=
        fun a => (buildAdjacencyList_get _ _ a).trans (survivingTargets_filtered nodes edges a)
      have hV : ∀ a b, b ∈ adjGet (buildAdjacencyList (pyFilterNodes nodes)
          (pyFilterEdges edges)) a →
          a ∈ (validNodeIds nodes).toFinset ∧ b ∈ (validNodeIds nodes).toFinset := by
        intro a b hb
        rw [hadj a] at hb
        obtain ⟨ha, hb', _⟩ := mem_survivingTargets.mp hb
        exact ⟨List.mem_toFinset.mpr ha, List.mem_toFinset.mpr hb'⟩
      obtain ⟨b, heqr, htr, hfa⟩ := dfsRoots_ok
        (buildAdjacencyList (pyFilterNodes nodes) (pyFilterEdges edges))
        ((validNodeIds nodes).toFinset) hV (roots.length + 1) roots ∅
        (fun r hr => List.mem_toFinset.mpr (hperm.mem_iff.mp hr))
        (Finset.empty_subset _)
        ⟨[], trivial, List.nodup_nil, by simp⟩
        (by
          rw [Finset.sdiff_empty]
          calc (validNodeIds nodes).toFinset.card
              ≤ (validNodeIds nodes).length := List.toFinset_card_le _
            _ = roots.length := (hperm.length_eq).symm
            _ < roots.length + 1 := Nat.lt_succ_self _)
      refine ⟨b, hres ▸ heqr, ?_⟩
      constructor
      · intro hb
        obtain ⟨w, hw⟩ := htr hb
        refine ⟨w, Relation.TransGen.mono ?_ hw⟩
        intro x y hxy
        rw [adjRel, hadj x] at hxy
        exact mem_survivingTargets.mp hxy
      · intro hcyc
        cases hbv : b with
        | true => rfl
        | false =>
          exfalso
          obtain ⟨vis', _, _, hcov, L, hco, hnd, hts⟩ := hfa hbv
          obtain ⟨v, hvv⟩ := hcyc
          have hadjcyc : Relation.TransGen (adjRel (buildAdjacencyList
              (pyFilterNodes nodes) (pyFilterEdges edges))) v v := by
            refine Relation.TransGen.mono ?_ hvv
            intro x y hxy
            rw [adjRel, hadj x]
            exact mem_survivingTargets.mpr hxy
          have hvids : v ∈ validNodeIds nodes := by
            rcases Relation.TransGen.head'_iff.mp hvv with ⟨w, hvw, _⟩
            exact hvw.1
          have hvL : v ∈ L := by
            rw [← List.mem_toFinset, hts, Finset.sdiff_empty]
            exact hcov v (hperm.mem_iff.mpr hvids)
          exact compOrder_no_cycle hco hnd v hvL hadjcyc

theorem detectCore_ok (nodes : List (Option WorkflowNode))
    (edges : List (Option WorkflowEdge)) :
    ∃ b, detectCyclesCore nodes edges = some b ∧ (b = true ↔ hasCycleProp nodes edges) :=
  detectCoreRoots_ok nodes edges (validNodeIds (pyFilterNodes nodes))
    (by rw [validNodeIds_pyFilterNodes])

theorem detect_cycles_iff (nodes : List (Option WorkflowNode))
    (edges : List (Option WorkflowEdge)) :
    detect_cycles nodes edges = true ↔ hasCycleProp nodes edges := by
  obtain ⟨b, heq, hiff⟩ := detectCore_ok nodes edges
  rw [detect_cycles, heq]
  exact hiff

/-! ### Invariance under dropping dangling edges (claim C6 infrastructure) -/

/-- The edge list with every dangling edge (an edge record whose source or
target is not a valid node id) removed; null records are not edges and are
kept. -/
def dropDangling (nodes : List (Option WorkflowNode))
    (edges : List (Option WorkflowEdge)) : List (Option WorkflowEdge) :=
  edges.filter (fun e? => match e? with
    | none => true
    | some e => decide (e.source ∈ validNodeIds nodes ∧ e.target ∈ validNodeIds nodes))

theorem foldl_buildStep_filter (ids : List String) (q : Option WorkflowEdge → Bool)
    (hq : ∀ e : WorkflowEdge, q (some e) = false →
      ¬(e.source ∈ ids ∧ e.target ∈ ids)) :
    ∀ (l : List (Option WorkflowEdge)) (m : AdjList),
      (l.filter q).foldl (buildStep ids) m = l.foldl (buildStep ids) m := by
  intro l
  induction l with
  | nil => intro _; rfl
  | cons e? rest ih =>
    intro m
    cases hqe : q e? with
    | true =>
      rw [List.filter_cons, if_pos hqe, List.foldl_cons, ih, List.foldl_cons]
    | false =>
      have hstep : buildStep ids m e? = m := by
        cases e? with
        | none => rfl
        | some e =>
          by_cases hid : e.id = ""
          · simp [buildStep, hid]
          · simp [buildStep, hid, hq e hqe]
      rw [List.filter_cons, if_neg (by rw [hqe]; exact Bool.false_ne_true), ih,
        List.foldl_cons, hstep]

theorem buildAdjacencyList_dropDangling (nodes : List (Option WorkflowNode))
    (edges : List (Option WorkflowEdge)) :
    buildAdjacencyList nodes (dropDangling nodes edges) =
      buildAdjacencyList nodes edges := by
  rw [buildAdjacencyList, buildAdjacencyList, buildFromIds, buildFromIds, dropDangling]
  exact foldl_buildStep_filter (validNodeIds nodes) _
    (fun e hfq => of_decide_eq_false hfq) edges _

theorem pyFilterEdges_dropDangling (nodes : List (Option WorkflowNode))
    (edges : List (Option WorkflowEdge)) :
    pyFilterEdges (dropDangling nodes edges) =
      (pyFilterEdges edges).filter (fun e? => match e? with
        | none => true
        | some e => decide (e.source ∈ validNodeIds nodes ∧
            e.target ∈ validNodeIds nodes)) := by
  rw [pyFilterEdges, dropDangling, List.filter_filter, pyFilterEdges,
    List.filter_filter]
  exact List.filter_congr (fun e? _ => by cases e? <;> simp [Bool.and_comm])

theorem detectCore_dropDangling (nodes : List (Option WorkflowNode))
    (edges : List (Option WorkflowEdge)) :
    detectCyclesCore nodes (dropDangling nodes edges) = detectCyclesCore nodes edges := by
  have hbuild : buildAdjacencyList (pyFilterNodes nodes)
      (pyFilterEdges (dropDangling nodes edges)) =
      buildAdjacencyList (pyFilterNodes nodes) (pyFilterEdges edges) := by
    rw [pyFilterEdges_dropDangling, buildAdjacencyList, buildAdjacencyList,
      buildFromIds, buildFromIds]
    refine foldl_buildStep_filter _ _ (fun e hfq => ?_) (pyFilterEdges edges) _
    rw [validNodeIds_pyFilterNodes]
    exact of_decide_eq_false hfq
  rw [detectCyclesCore, detectCyclesCore, detectCyclesCoreRoots, detectCyclesCoreRoots]
  by_cases hne : nodes.isEmpty = true
  · rw [if_pos hne, if_pos hne]
  · rw [if_neg hne, if_neg hne]
    simp only [hbuild]

/-! ### Canonical form of `detectCyclesCore` on non-degenerate input -/

theorem detectCore_canonical (nodes : List (Option WorkflowNode))
    (edges : List (Option WorkflowEdge)) (hne : nodes.isEmpty = false)
    (hlen : (pyFilterNodes nodes).length ≠ 0) :
    detectCyclesCore nodes edges =
      dfsRoots (buildFromIds (validNodeIds nodes) (pyFilterEdges edges))
        ((validNodeIds nodes).length + 1) (validNodeIds nodes) ∅ ∅ := by
  rw [detectCyclesCore, detectCyclesCoreRoots,
    if_neg (show ¬nodes.isEmpty = true by rw [hne]; exact Bool.false_ne_true),
    validNodeIds_pyFilterNodes]
  simp only [if_neg hlen]
  rw [buildAdjacencyList, validNodeIds_pyFilterNodes]

/-! ### Collapse of duplicate node records (claim C10 infrastructure) -/

theorem rawIds_append_single (nodes : List (Option WorkflowNode)) (n : WorkflowNode) :
    rawIds (nodes ++ [some n]) = rawIds nodes ++ (if n.id = "" then [] else [n.id]) := by
  rw [rawIds, rawIds, List.filterMap_append]
  congr 1
  by_cases h : n.id = ""
  · rw [if_pos h]
    exact @List.filterMap_cons_none (Option WorkflowNode) String
      (fun n? => n?.bind (fun nd => if nd.id = "" then none else some nd.id))
      (some n) [] (if_pos h)
  · rw [if_neg h]
    exact @List.filterMap_cons_some (Option WorkflowNode) String
      (fun n? => n?.bind (fun nd => if nd.id = "" then none else some nd.id))
      (some n) [] n.id (if_neg h)

theorem validNodeIds_append_dup {nodes : List (Option WorkflowNode)} {n : WorkflowNode}
    (h : n.id ∈ validNodeIds nodes) :
    validNodeIds (nodes ++ [some n]) = validNodeIds nodes := by
  have hne : n.id ≠ "" := ne_empty_of_mem_validNodeIds h
  have hmem : n.id ∈ rawIds nodes := by
    rw [validNodeIds] at h
    exact mem_dedupFirst.mp h
  rw [validNodeIds, rawIds_append_single, if_neg hne, validNodeIds]
  exact dedupFirst_append_of_mem hmem

theorem pyFilterNodes_append_valid (nodes : List (Option WorkflowNode))
    {n : WorkflowNode} (hne : n.id ≠ "") :
    pyFilterNodes (nodes ++ [some n]) = pyFilterNodes nodes ++ [some n] := by
  rw [pyFilterNodes, pyFilterNodes, List.filter_append]
  congr 1
  simp [List.filter_cons, hne]

theorem detectCore_append_dup (nodes : List (Option WorkflowNode))
    (edges : List (Option WorkflowEdge)) (n : WorkflowNode)
    (h : n.id ∈ validNodeIds nodes) :
    detectCyclesCore (nodes ++ [some n]) edges = detectCyclesCore nodes edges := by
  have hne : n.id ≠ "" := ne_empty_of_mem_validNodeIds h
  have hids : validNodeIds (nodes ++ [some n]) = validNodeIds nodes :=
    validNodeIds_append_dup h
  have hnodes_ne : nodes.isEmpty = false := by
    cases nodes with
    | nil => rw [validNodeIds_nil] at h; simp at h
    | cons _ _ => rfl
  have happend_ne : (nodes ++ [some n]).isEmpty = false := by
    cases nodes <;> rfl
  have hfilter : pyFilterNodes (nodes ++ [some n]) = pyFilterNodes nodes ++ [some n] :=
    pyFilterNodes_append_valid nodes hne
  have hlen : (pyFilterNodes nodes).length ≠ 0 := by
    intro h0
    have hz : pyFilterNodes nodes = [] := List.length_eq_zero.mp h0
    have h2 : validNodeIds nodes = [] := by
      rw [← validNodeIds_pyFilterNodes, hz, validNodeIds_nil]
    rw [h2] at h
    simp at h
  have hlen2 : (pyFilterNodes (nodes ++ [some n])).length ≠ 0 := by
    rw [hfilter, List.length_append]
    simp
  rw [detectCore_canonical nodes edges hnodes_ne hlen,
    detectCore_canonical (nodes ++ [some n]) edges happend_ne hlen2, hids]

/-! ## Claim theorems -/

/-- Claim C1: `detect_cycles` returns true if and only if the directed graph
over the surviving (validly filtered) nodes and edges contains a directed
cycle, i.e. a non-empty path that starts and ends at the same node. -/
theorem c1_detect_cycles_true_iff_cycle (nodes : List (Option WorkflowNode))
    (edges : List (Option WorkflowEdge)) :
    detect_cycles nodes edges = true ↔ hasCycleProp nodes edges :=
  detect_cycles_iff nodes edges

/-- Claim C2: the map returned by `build_adjacency_list` has key set exactly
the valid node ids, each key's neighbor list is exactly the sequence of
targets of the surviving edges with that source in edge input order, and
every id appearing in a neighbor list is itself a key (closure). -/
theorem c2_build_adjacency_characterization (nodes : List (Option WorkflowNode))
    (edges : List (Option WorkflowEdge)) :
    (buildAdjacencyList nodes edges).map Prod.fst = validNodeIds nodes ∧
    (∀ a, adjGet (buildAdjacencyList nodes edges) a = survivingTargets nodes edges a) ∧
    (∀ a b, b ∈ adjGet (buildAdjacencyList nodes edges) a →
      b ∈ (buildAdjacencyList nodes edges).map Prod.fst) := by
  refine ⟨buildAdjacencyList_keys nodes edges,
    fun a => buildAdjacencyList_get nodes edges a, fun a b hb => ?_⟩
  rw [buildAdjacencyList_keys]
  rw [buildAdjacencyList_get] at hb
  exact (mem_survivingTargets.mp hb).2.1

/-- Claim C3: `is_dag` equals the boolean negation of `detect_cycles`. -/
theorem c3_is_dag_eq_not_detect_cycles (nodes : List (Option WorkflowNode))
    (edges : List (Option WorkflowEdge)) :
    is_dag nodes edges = !detect_cycles nodes edges ∧
      (is_dag nodes edges = true ↔ detect_cycles nodes edges = false) := by
  refine ⟨rfl, ?_⟩
  rw [is_dag]
  cases detect_cycles nodes edges <;> simp

/-- Claim C4: when zero nodes survive filtering (the node list is empty, or
every record is null or has an empty id), `detect_cycles` returns false and
`is_dag` returns true, regardless of the edge list. -/
theorem c4_no_valid_nodes_acyclic (nodes : List (Option WorkflowNode))
    (edges : List (Option WorkflowEdge))
    (h : ∀ n? ∈ nodes, ∀ nd : WorkflowNode, n? = some nd → nd.id = "") :
    detect_cycles nodes edges = false ∧ is_dag nodes edges = true := by
  have hraw : rawIds nodes = [] := by
    rw [rawIds, List.filterMap_eq_nil_iff]
    intro n? hn?
    cases n? with
    | none => rfl
    | some nd =>
      have hid := h (some nd) hn? nd rfl
      simp [hid]
  have hids : validNodeIds nodes = [] := by
    rw [validNodeIds, hraw]
    rfl
  have hdet : detect_cycles nodes edges ≠ true := fun hb =>
    not_hasCycleProp_of_no_valid_ids hids ((detect_cycles_iff nodes edges).mp hb)
  constructor
  · cases hb : detect_cycles nodes edges
    · rfl
    · exact absurd hb hdet
  · rw [is_dag]
    cases hb : detect_cycles nodes edges
    · rfl
    · exact absurd hb hdet

/-- Witness for claim C4 at a concrete input. -/
theorem c4_witness :
    (∀ n? ∈ ([none, some ⟨""⟩] : List (Option WorkflowNode)), ∀ nd : WorkflowNode,
      n? = some nd → nd.id = "") ∧
    (detect_cycles [none, some ⟨""⟩] [some ⟨"e", "a", "a"⟩] = false ∧
      is_dag [none, some ⟨""⟩] [some ⟨"e", "a", "a"⟩] = true) :=
  ⟨by simp, c4_no_valid_nodes_acyclic [none, some ⟨""⟩] [some ⟨"e", "a", "a"⟩] (by simp)⟩

/-- Claim C5: a valid node together with a valid edge whose source and target
both equal that node's id (a self-loop) forces `detect_cycles` to report true
and `is_dag` to report false. -/
theorem c5_self_loop_cyclic (nodes : List (Option WorkflowNode))
    (edges : List (Option WorkflowEdge)) (n : WorkflowNode) (e : WorkflowEdge)
    (hn : some n ∈ nodes) (hnid : n.id ≠ "") (he : some e ∈ edges)
    (heid : e.id ≠ "") (hsrc : e.source = n.id) (htgt : e.target = n.id) :
    detect_cycles nodes edges = true ∧ is_dag nodes edges = false := by
  have hmemid : n.id ∈ validNodeIds nodes := mem_validNodeIds.mpr ⟨n, hn, rfl, hnid⟩
  have hcyc : hasCycleProp nodes edges :=
    ⟨n.id, Relation.TransGen.single ⟨hmemid, hmemid,
      e, List.mem_filterMap.mpr ⟨some e, he, rfl⟩, heid, hsrc, htgt⟩⟩
  have hdet : detect_cycles nodes edges = true := (detect_cycles_iff nodes edges).mpr hcyc
  refine ⟨hdet, ?_⟩
  rw [is_dag, hdet]
  rfl

/-- Witness for claim C5 at a concrete input. -/
theorem c5_witness :
    (some (⟨"1"⟩ : WorkflowNode) ∈ [some (⟨"1"⟩ : WorkflowNode)]) ∧
    (detect_cycles [some ⟨"1"⟩] [some ⟨"e1", "1", "1"⟩] = true ∧
      is_dag [some ⟨"1"⟩] [some ⟨"e1", "1", "1"⟩] = false) :=
  ⟨by simp, c5_self_loop_cyclic [some ⟨"1"⟩] [some ⟨"e1", "1", "1"⟩] ⟨"1"⟩
    ⟨"e1", "1", "1"⟩ (by simp) (by decide) (by simp) (by decide) rfl rfl⟩

/-- Claim C6: removing the edges whose source or target is not a valid node
id changes neither the adjacency map nor the results of
`detect_cycles` / `is_dag`. -/
theorem c6_drop_dangling_invariant (nodes : List (Option WorkflowNode))
    (edges : List (Option WorkflowEdge)) :
    buildAdjacencyList nodes (dropDangling nodes edges) = buildAdjacencyList nodes edges ∧
    detect_cycles nodes (dropDangling nodes edges) = detect_cycles nodes edges ∧
    is_dag nodes (dropDangling nodes edges) = is_dag nodes edges := by
  refine ⟨buildAdjacencyList_dropDangling nodes edges, ?_, ?_⟩
  · rw [detect_cycles, detect_cycles, detectCore_dropDangling]
  · rw [is_dag, is_dag, detect_cycles, detect_cycles, detectCore_dropDangling]

/-- Claim C7: the boolean result of `detect_cycles` is deterministic and
independent of the order in which the valid node ids are used as traversal
roots: any permutation of the root list produces the same result. -/
theorem c7_root_order_irrelevant (nodes : List (Option WorkflowNode))
    (edges : List (Option WorkflowEdge)) (roots : List String)
    (hperm : roots.Perm (validNodeIds nodes)) :
    detectCyclesCoreRoots nodes edges roots = detectCyclesCore nodes edges ∧
    (detectCyclesCoreRoots nodes edges roots).getD false = detect_cycles nodes edges := by
  obtain ⟨b1, heq1, hiff1⟩ := detectCoreRoots_ok nodes edges roots hperm
  obtain ⟨b2, heq2, hiff2⟩ := detectCore_ok nodes edges
  have hb : b1 = b2 := by
    have h12 : b1 = true ↔ b2 = true := hiff1.trans hiff2.symm
    cases b1 with
    | false =>
      cases b2 with
      | false => rfl
      | true => exact absurd (h12.mpr rfl) (by simp)
    | true =>
      cases b2 with
      | false => exact absurd (h12.mp rfl) (by simp)
      | true => rfl
  have hcore : detectCyclesCoreRoots nodes edges roots = detectCyclesCore nodes edges := by
    rw [heq1, heq2, hb]
  refine ⟨hcore, ?_⟩
  rw [hcore, detect_cycles]

/-- Witness for claim C7 at a concrete input with a nontrivially permuted
root order. -/
theorem c7_witness :
    (["b", "a"].Perm (validNodeIds [some ⟨"a"⟩, some ⟨"b"⟩])) ∧
    (detectCyclesCoreRoots [some ⟨"a"⟩, some ⟨"b"⟩] [] ["b", "a"] =
        detectCyclesCore [some ⟨"a"⟩, some ⟨"b"⟩] [] ∧
      (detectCyclesCoreRoots [some ⟨"a"⟩, some ⟨"b"⟩] [] ["b", "a"]).getD false =
        detect_cycles [some ⟨"a"⟩, some ⟨"b"⟩] []) :=
  have hperm : (["b", "a"] : List String).Perm
      (validNodeIds [some ⟨"a"⟩, some ⟨"b"⟩]) := by
    rw [show validNodeIds [some ⟨"a"⟩, some ⟨"b"⟩] = ["a", "b"] from by decide]
    exact List.Perm.swap "a" "b" []
  ⟨hperm, c7_root_order_irrelevant [some ⟨"a"⟩, some ⟨"b"⟩] [] ["b", "a"] hperm⟩

/-- Claim C8: the pipeline never fails on any input shape — the traversal
always terminates normally (the fuel never runs out), and
`build_adjacency_list`, `detect_cycles` and `is_dag` return ordinary
results. -/
theorem c8_never_fails (nodes : List (Option WorkflowNode))
    (edges : List (Option WorkflowEdge)) :
    ∃ b, detectCyclesCore nodes edges = some b ∧ detect_cycles nodes edges = b ∧
      is_dag nodes edges = !b := by
  obtain ⟨b, heq, _⟩ := detectCore_ok nodes edges
  refine ⟨b, heq, ?_, ?_⟩
  · rw [detect_cycles, heq]
    rfl
  · rw [is_dag, detect_cycles, heq]
    rfl

/-- Claim C9: across any call of the depth-first visit, the recursion stack
stays inside `visited`, the visited set only grows and includes the node
under exploration, and on a cycle-free return the stack is restored exactly
after every out-neighbor has been explored (hence visited). -/
theorem c9_dfs_state_invariants (adj : AdjList) (fuel : Nat) (u : String)
    (vis rec : Finset String) (hsub : rec ⊆ vis) (hu : u ∉ vis) :
    match hasCycleDfs adj fuel u vis rec with
    | none => True
    | some (b, v', r') =>
        r' ⊆ v' ∧ vis ⊆ v' ∧ u ∈ v' ∧
          (b = false → r' = rec ∧ ∀ n ∈ adjGet adj u, n ∈ v') := by
  cases hd : hasCycleDfs adj fuel u vis rec with
  | none => trivial
  | some out =>
    rcases out with ⟨b, v', r'⟩
    obtain ⟨h1, h2, h3, h4⟩ := dfs_basic adj fuel u vis rec b v' r' hd hsub hu
    exact ⟨h3, h1, h2, h4⟩

/-- Witness for claim C9 at a concrete input. -/
theorem c9_witness :
    ((∅ : Finset String) ⊆ ∅) ∧ ("a" ∉ (∅ : Finset String)) ∧
    (match hasCycleDfs [("a", [])] 1 "a" ∅ ∅ with
     | none => True
     | some (b, v', r') =>
         r' ⊆ v' ∧ (∅ : Finset String) ⊆ v' ∧ "a" ∈ v' ∧
           (b = false → r' = ∅ ∧ ∀ n ∈ adjGet [("a", [])] "a", n ∈ v')) :=
  ⟨by decide, by decide,
    c9_dfs_state_invariants [("a", [])] 1 "a" ∅ ∅ (by decide) (by decide)⟩

/-- Claim C10: appending a node record whose id duplicates an already valid
node id changes neither the adjacency map nor the results of
`detect_cycles` / `is_dag`. -/
theorem c10_duplicate_node_collapse (nodes : List (Option WorkflowNode))
    (edges : List (Option WorkflowEdge)) (n : WorkflowNode)
    (h : n.id ∈ validNodeIds nodes) :
    buildAdjacencyList (nodes ++ [some n]) edges = buildAdjacencyList nodes edges ∧
    detect_cycles (nodes ++ [some n]) edges = detect_cycles nodes edges ∧
    is_dag (nodes ++ [some n]) edges = is_dag nodes edges := by
  refine ⟨?_, ?_, ?_⟩
  · rw [buildAdjacencyList, buildAdjacencyList, validNodeIds_append_dup h]
  · rw [detect_cycles, detect_cycles, detectCore_append_dup nodes edges n h]
  · rw [is_dag, is_dag, detect_cycles, detect_cycles, detectCore_append_dup nodes edges n h]

/-- Witness for claim C10 at a concrete input. -/
theorem c10_witness :
    ((⟨"a"⟩ : WorkflowNode).id ∈ validNodeIds [some ⟨"a"⟩]) ∧
    (buildAdjacencyList ([some ⟨"a"⟩] ++ [some ⟨"a"⟩]) [some ⟨"e", "a", "a"⟩] =
        buildAdjacencyList [some ⟨"a"⟩] [some ⟨"e", "a", "a"⟩] ∧
      detect_cycles ([some ⟨"a"⟩] ++ [some ⟨"a"⟩]) [some ⟨"e", "a", "a"⟩] =
        detect_cycles [some ⟨"a"⟩] [some ⟨"e", "a", "a"⟩] ∧
      is_dag ([some ⟨"a"⟩] ++ [some ⟨"a"⟩]) [some ⟨"e", "a", "a"⟩] =
        is_dag [some ⟨"a"⟩] [some ⟨"e", "a", "a"⟩]) :=
  ⟨by decide, c10_duplicate_node_collapse [some ⟨"a"⟩] [some ⟨"e", "a", "a"⟩] ⟨"a"⟩
    (by decide)⟩

end VectorShift
